import Mathlib

/-
  Verification of the nstree process-tree visualizer (src/main.c).

  The core data model and algorithms of the C program are shallowly
  embedded below: `parse_namespace_symlink`, `find_namespace_inode`,
  `has_requested_namespace_diff` (split into the per-filter helper
  `nsDiffersForFilter`), `mark_keep_processes` (as `markKeep`), the
  recursive `print_tree` renderer (as `renderTree`, producing the list
  of emitted lines), and the root-selection phase of `main` (as
  `mainRender`).  C strings become Lean `String`s; the fixed-size
  buffers of `NamespaceEntry` (32-byte type, 64-byte inode) are modelled
  by explicit character-count truncation; the global process array and
  parent/child pointers become an inductive tree whose children list is
  the order-preserving list built by `build_process_tree`.
-/

set_option maxHeartbeats 1000000

set_option linter.unusedVariables false

namespace NSTree

/-- Embedding of `struct NamespaceEntry` (src/main.c lines 44-47):
a namespace type label and the full symlink target (called `inode`). -/
structure NamespaceEntry where
  type : String
  inode : String
deriving DecidableEq, Repr

/-- Position of the first ':' in a character list, as computed by the
`strchr` call in `parse_namespace_symlink` (src/main.c line 123). -/
def firstColonIdx : List Char → Option Nat
  | [] => none
  | c :: rest => if c = ':' then some 0 else (firstColonIdx rest).map (· + 1)

/-- Embedding of `parse_namespace_symlink` (src/main.c lines 117-133).
The inode buffer holds 64 bytes so at most 63 characters of the target
are stored; the type buffer holds 32 bytes, so the type is the part of
the target before the first ':' truncated to at most 31 characters
(and the whole target truncated to 31 characters when no ':' occurs). -/
def parse_namespace_symlink (linkTarget : String) : NamespaceEntry :=
  let stored : List Char := linkTarget.data.take 63
  let ty : List Char :=
    match firstColonIdx linkTarget.data with
    | some p => linkTarget.data.take (min p 31)
    | none => linkTarget.data.take 31
  ⟨⟨ty⟩, ⟨stored⟩⟩

/-- A symlink target fits the fixed buffers of `NamespaceEntry` when
its first ':' occurs before position 32, or it has no ':' and at most
31 characters. -/
def bufferFits (s : String) : Bool :=
  match firstColonIdx s.data with
  | some p => p < 32
  | none => s.data.length ≤ 31

/-- Embedding of the per-record fields of `struct ProcInfo`
(src/main.c lines 62-76), without the derived children pointers and
the mutable `keep` flag. -/
structure PRec where
  pid : Int
  ppid : Int
  comm : String
  isThread : Bool
  namespaces : List NamespaceEntry
  nsReadable : Bool
deriving DecidableEq, Repr

/-- The process tree view built by `build_process_tree`: a record
together with its ordered children list. -/
inductive ProcTree where
  | node (info : PRec) (children : List ProcTree)

/-- A process tree annotated with the `keep` flag that
`mark_keep_processes` writes into each `ProcInfo`. -/
inductive KTree where
  | node (info : PRec) (keep : Bool) (children : List KTree)

/-- The record stored at the root of an annotated tree. -/
def KTree.info : KTree → PRec
  | .node r _ _ => r

/-- The `keep` flag at the root of an annotated tree. -/
def KTree.keep : KTree → Bool
  | .node _ k _ => k

/-- The children of the root of an annotated tree. -/
def KTree.children : KTree → List KTree
  | .node _ _ cs => cs

/-- Embedding of `find_namespace_inode` (src/main.c lines 431-438):
linear scan returning the inode of the first entry whose type matches. -/
def find_namespace_inode : List NamespaceEntry → String → Option String
  | [], _ => none
  | e :: rest, t => if e.type == t then some e.inode else find_namespace_inode rest t

/-- One iteration of the filter loop of `has_requested_namespace_diff`
(src/main.c lines 454-502): does the node differ from its parent in the
single namespace filter `filterType` ("*" is the wildcard)? -/
def nsDiffersForFilter (filterType : String) (ns : List NamespaceEntry)
    (parentNs : Option (List NamespaceEntry)) : Bool :=
  if filterType == "*" then
    ns.any (fun e =>
      match parentNs with
      | none => true
      | some ps =>
        match find_namespace_inode ps e.type with
        | none => true
        | some p => p != e.inode)
  else
    match parentNs, (ns.find? (fun e => e.type == filterType)).map NamespaceEntry.inode with
    | none, some _ => true
    | none, none => false
    | some _, none => false
    | some ps, some ci =>
      match find_namespace_inode ps filterType with
      | none => true
      | some p => p != ci

/-- Embedding of `has_requested_namespace_diff` (src/main.c lines
446-504): with no filters it returns 0; otherwise it returns 1 as soon
as some filter in the list witnesses a difference. -/
def hasRequestedNamespaceDiff (filters : List String) (ns : List NamespaceEntry)
    (parentNs : Option (List NamespaceEntry)) : Bool :=
  if filters.isEmpty then false
  else filters.any (fun f => nsDiffersForFilter f ns parentNs)

mutual

/-- Embedding of `mark_keep_processes` (src/main.c lines 512-533): the
node's own flag is 1 with no filters, otherwise the result of
`has_requested_namespace_diff`; then any kept child forces `keep`.
Children are always compared against this node's namespace array
(never NULL), exactly as the C code passes `proc->namespaces`. -/
def markKeep (filters : List String) (parentNs : Option (List NamespaceEntry)) :
    ProcTree → KTree
  | .node r cs =>
    let kcs := markKeepList filters r.namespaces cs
    let own : Bool :=
      if filters.isEmpty then true
      else hasRequestedNamespaceDiff filters r.namespaces parentNs
    .node r (own || kcs.any KTree.keep) kcs

/-- The child loop of `mark_keep_processes` (src/main.c lines 524-530). -/
def markKeepList (filters : List String) (parentNsList : List NamespaceEntry) :
    List ProcTree → List KTree
  | [] => []
  | c :: rest =>
    markKeep filters (some parentNsList) c :: markKeepList filters parentNsList rest

end

/-- The namespace-diff loop of `print_tree` (src/main.c lines 570-590):
the identifiers of the node's entries, in storage order, whose type is
absent from the parent's set or whose inode differs from the parent's
entry of the same type; with no parent every identifier is listed. -/
def diffInodes (ns : List NamespaceEntry) (parentNs : Option (List NamespaceEntry)) :
    List String :=
  ns.filterMap (fun e =>
    match parentNs.bind (fun ps => find_namespace_inode ps e.type) with
    | none => some e.inode
    | some p => if p == e.inode then none else some e.inode)

/-- One output line of `print_tree` (src/main.c lines 554-592): prefix,
branch glyph, command (braced for threads) with pid, an asterisk when
namespaces were unreadable, and the bracketed namespace diff when it
is non-empty. -/
def lineOf (r : PRec) (pre : String) (isLast : Bool)
    (parentNs : Option (List NamespaceEntry)) : String :=
  let base := pre ++ (if isLast then "└─" else "├─") ++
    (if r.isThread then "\x7b" ++ r.comm ++ "\x7d" else r.comm) ++
    "(" ++ toString r.pid ++ ")" ++
    (if r.nsReadable then "" else "*")
  let d := diffInodes r.namespaces parentNs
  if d.isEmpty then base else base ++ " [" ++ String.intercalate ", " d ++ "]"

/-- The last-kept-child scan of `print_tree` (src/main.c lines 603-609):
walk the child indices downward and return the first index whose child
is kept, or -1 when none is. -/
def lastKeptIdx (cs : List KTree) : Int :=
  match (List.range cs.length).reverse.find? (fun i =>
      match cs.get? i with
      | some c => c.keep
      | none => false) with
  | some i => (i : Int)
  | none => -1

mutual

/-- Embedding of `print_tree` (src/main.c lines 547-619) as the list of
lines it prints: nothing for a pruned node; otherwise its own line
followed by the lines of its kept children, each child compared against
this node's namespace set and flagged last exactly when its index is
the last kept index. -/
def renderTree (t : KTree) (pre : String) (isLast : Bool)
    (parentNs : Option (List NamespaceEntry)) : List String :=
  match t with
  | .node r k cs =>
    if !k then []
    else
      lineOf r pre isLast parentNs ::
        renderChildren 0 (lastKeptIdx cs)
          (pre ++ (if isLast then "  " else "│ ")) r.namespaces cs

/-- The child loop of `print_tree` (src/main.c lines 612-618), carrying
the running child index. -/
def renderChildren (idx : Nat) (li : Int) (newPre : String)
    (parentNsList : List NamespaceEntry) : List KTree → List String
  | [] => []
  | c :: rest =>
    (if c.keep then renderTree c newPre ((idx : Int) == li) (some parentNsList) else []) ++
      renderChildren (idx + 1) li newPre parentNsList rest

end

mutual

/-- All nodes of an annotated tree, in preorder. -/
def allNodes : KTree → List KTree
  | .node r k cs => .node r k cs :: allNodesList cs

/-- All nodes of a list of annotated trees, in preorder. -/
def allNodesList : List KTree → List KTree
  | [] => []
  | c :: rest => allNodes c ++ allNodesList rest

end

mutual

/-- The nodes `print_tree` actually visits and prints (same traversal
and pruning guards as `renderTree`, one node per emitted line). -/
def renderedNodes : KTree → List KTree
  | .node r k cs => if !k then [] else .node r k cs :: renderedNodesList cs

/-- The child loop of the rendered-node traversal. -/
def renderedNodesList : List KTree → List KTree
  | [] => []
  | c :: rest => (if c.keep then renderedNodes c else []) ++ renderedNodesList rest

end

/-- The preorder list of keep flags of an annotated tree. -/
def keepFlags (t : KTree) : List Bool :=
  (allNodes t).map KTree.keep

/-- An annotated tree is keep-closed when, everywhere in it, a kept
child forces its parent to be kept (the upward-propagation shape that
`mark_keep_processes` establishes). -/
def KeepClosed (t : KTree) : Prop :=
  ∀ s ∈ allNodes t, ∀ c ∈ s.children, c.keep = true → s.keep = true

mutual

/-- Rendering with the filter logic removed, following the spec's §4.4
words directly: every node is printed unconditionally, and a child is
"last" exactly when no sibling follows it. -/
def renderNoFilterSpec : ProcTree → String → Bool → Option (List NamespaceEntry) → List String
  | .node r cs, pre, isLast, parentNs =>
    lineOf r pre isLast parentNs ::
      renderNoFilterSpecChildren (pre ++ (if isLast then "  " else "│ ")) r.namespaces cs

/-- The child loop of the no-filter rendering. -/
def renderNoFilterSpecChildren (newPre : String) (parentNsList : List NamespaceEntry) :
    List ProcTree → List String
  | [] => []
  | c :: rest =>
    renderNoFilterSpec c newPre rest.isEmpty (some parentNsList) ++
      renderNoFilterSpecChildren newPre parentNsList rest

end

/-- The children relation of `build_process_tree` (src/main.c lines
390-421): the records whose ppid equals this record's pid, in input
order. -/
def childRecords (records : List PRec) (r : PRec) : List PRec :=
  records.filter (fun c => c.ppid == r.pid)

/-- The tree reachable from a record through `build_process_tree`'s
children lists.  The C recursion terminates only on acyclic inputs;
a fuel argument (instantiated with the record count, an upper bound on
the depth of any acyclic parent chain) makes the embedding total. -/
def buildTree (records : List PRec) : Nat → PRec → ProcTree
  | 0, r => .node r []
  | fuel + 1, r =>
    .node r ((childRecords records r).map (fun c => buildTree records fuel c))

/-- The render phase of `main` (src/main.c lines 684-691): scan for the
first record with pid 1 that is not a thread; if present, mark keep
flags from it (with NULL parent namespaces) and print the tree; if
absent, print nothing. -/
def mainRender (records : List PRec) (filters : List String) : List String :=
  match records.find? (fun r => r.pid == 1 && !r.isThread) with
  | none => []
  | some r =>
    renderTree (markKeep filters none (buildTree records records.length r)) "" true none

/-- The pid-1 record of the spec's §8 scenario: namespaces net:A, mnt:B. -/
def rec1 : PRec := ⟨1, 0, "init", false, [⟨"net", "net:A"⟩, ⟨"mnt", "mnt:B"⟩], true⟩

/-- The pid-2 record of the spec's §8 scenario: namespaces net:A, mnt:C. -/
def rec2 : PRec := ⟨2, 1, "p2", false, [⟨"net", "net:A"⟩, ⟨"mnt", "mnt:C"⟩], true⟩

/-- The pid-3 record of the spec's §8 scenario: namespaces net:D, mnt:C. -/
def rec3 : PRec := ⟨3, 2, "p3", false, [⟨"net", "net:D"⟩, ⟨"mnt", "mnt:C"⟩], true⟩

/-- The scenario tree with pid 3 removed: pid 2 under pid 1. -/
def twoTree : ProcTree := .node rec1 [.node rec2 []]

/-- The full scenario tree: pid 3 under pid 2 under pid 1. -/
def threeTree : ProcTree := .node rec1 [.node rec2 [.node rec3 []]]

/-- A symlink target whose pre-colon part (40 characters) exceeds the
31 characters that fit in the `type` buffer. -/
def longTarget : String := ⟨List.replicate 40 'a' ++ [':', 'x']⟩

/-- A small record used to instantiate universally quantified theorems. -/
def wRec : PRec := ⟨7, 1, "w", false, [⟨"net", "net:W"⟩], true⟩

/-- Induction over process trees: to prove a property of every tree it
suffices to prove it for a node assuming it for every child. -/
theorem procTree_ind (P : ProcTree → Prop)
    (h : ∀ r cs, (∀ c, c ∈ cs → P c) → P (.node r cs)) : ∀ t, P t
  | .node r cs => h r cs (fun c hc => procTree_ind P h c)
termination_by t => sizeOf t
decreasing_by
  have hlt := List.sizeOf_lt_of_mem hc
  simp only [ProcTree.node.sizeOf_spec]
  omega

/-- Induction over annotated trees. -/
theorem kTree_ind (P : KTree → Prop)
    (h : ∀ r k cs, (∀ c, c ∈ cs → P c) → P (.node r k cs)) : ∀ t, P t
  | .node r k cs => h r k cs (fun c hc => kTree_ind P h c)
termination_by t => sizeOf t
decreasing_by
  have hlt := List.sizeOf_lt_of_mem hc
  simp only [KTree.node.sizeOf_spec]
  omega

/-- The linear scan of `find_namespace_inode` returns the inode of the
first entry whose type matches. -/
theorem find_namespace_inode_eq_find? (ps : List NamespaceEntry) (t : String) :
    find_namespace_inode ps t = (ps.find? (fun x => x.type == t)).map NamespaceEntry.inode := by
  induction ps with
  | nil => rfl
  | cons e rest ih =>
    cases h : (e.type == t) <;>
      simp [find_namespace_inode, List.find?_cons, h, ih]

/-- C1: the rendered namespace diff is exactly the identifiers, in
storage order, of the node's entries whose type is absent from the
parent's set or whose identifier differs from the parent's same-type
entry; and with no parent it is the node's full ordered identifier
list. -/
theorem c1_diff_rendering (ns ps : List NamespaceEntry) :
    diffInodes ns (some ps) =
      (ns.filter (fun e =>
        match ps.find? (fun x => x.type == e.type) with
        | none => true
        | some x => x.inode != e.inode)).map NamespaceEntry.inode
    ∧ diffInodes ns none = ns.map NamespaceEntry.inode := by
  constructor
  · induction ns with
    | nil => rfl
    | cons e rest ih =>
      simp only [diffInodes, List.filterMap_cons, Option.some_bind,
        find_namespace_inode_eq_find?] at ih ⊢
      cases hf : ps.find? (fun x => x.type == e.type) with
      | none => simpa [hf] using ih
      | some x =>
        cases hx : (x.inode == e.inode) <;>
          simp_all [hf, List.filter_cons]
  · induction ns with
    | nil => rfl
    | cons e rest ih =>
      simpa [diffInodes, List.filterMap_cons] using ih

/-- C4: a root node (absent parent) is relevant for a concrete filter
type exactly when it possesses an entry of that type, independently of
the entry's identifier. -/
theorem c4_root_relevance (t : String) (ht : t ≠ "*") (ns : List NamespaceEntry) :
    hasRequestedNamespaceDiff [t] ns none = ns.any (fun e => e.type == t) := by
  have hbeq : (t == "*") = false := by simpa using ht
  simp only [hasRequestedNamespaceDiff, List.isEmpty_cons, Bool.false_eq_true,
    if_false, List.any_cons, List.any_nil, Bool.or_false, nsDiffersForFilter, hbeq]
  cases hfind : ns.find? (fun e => e.type == t) with
  | none =>
    rw [List.find?_eq_none] at hfind
    simp only [Option.map_none']
    exact (List.any_eq_false.mpr (fun e he => by simpa using hfind e he)).symm
  | some e =>
    have hmem := List.mem_of_find?_eq_some hfind
    have hpe := List.find?_some hfind
    simp only [Option.map_some']
    exact (List.any_eq_true.mpr ⟨e, hmem, hpe⟩).symm

/-- Witness for `c4_root_relevance` at the filter "net" and a
single-entry namespace set. -/
theorem c4_root_relevance_witness :
    ("net" : String) ≠ "*" ∧
      hasRequestedNamespaceDiff ["net"] [⟨"net", "net:W"⟩] none =
        ([⟨"net", "net:W"⟩] : List NamespaceEntry).any (fun e => e.type == "net") :=
  ⟨by decide, c4_root_relevance "net" (by decide) [⟨"net", "net:W"⟩]⟩

/-- C10: diffing against an empty (for instance unreadable) parent
namespace set lists the child's entire namespace list; own relevance
under a concrete filter type is exactly possession of an entry of that
type; and a node with an empty namespace set passes that empty set to
its children's rendering. -/
theorem c10_empty_parent_diff (t : String) (ht : t ≠ "*") (ns : List NamespaceEntry)
    (r : PRec) (hr : r.namespaces = []) :
    diffInodes ns (some []) = ns.map NamespaceEntry.inode
    ∧ hasRequestedNamespaceDiff [t] ns (some []) = ns.any (fun e => e.type == t)
    ∧ ∀ (cs : List KTree) (pre : String) (b : Bool)
        (pns : Option (List NamespaceEntry)),
        renderTree (KTree.node r true cs) pre b pns =
          lineOf r pre b pns ::
            renderChildren 0 (lastKeptIdx cs) (pre ++ (if b then "  " else "│ ")) [] cs := by
  refine ⟨?_, ?_, ?_⟩
  · induction ns with
    | nil => rfl
    | cons e rest ih =>
      simpa [diffInodes, List.filterMap_cons, find_namespace_inode] using ih
  · have hbeq : (t == "*") = false := by simpa using ht
    simp only [hasRequestedNamespaceDiff, List.isEmpty_cons, Bool.false_eq_true,
      if_false, List.any_cons, List.any_nil, Bool.or_false, nsDiffersForFilter, hbeq]
    cases hfind : ns.find? (fun e => e.type == t) with
    | none =>
      rw [List.find?_eq_none] at hfind
      simp only [Option.map_none']
      exact (List.any_eq_false.mpr (fun e he => by simpa using hfind e he)).symm
    | some e =>
      have hmem := List.mem_of_find?_eq_some hfind
      have hpe := List.find?_some hfind
      simp only [Option.map_some', find_namespace_inode]
      exact (List.any_eq_true.mpr ⟨e, hmem, hpe⟩).symm
  · intro cs pre b pns
    simp [renderTree, hr]

/-- Witness for `c10_empty_parent_diff` at filter "net", a one-entry
child set, and a record with an empty namespace set. -/
theorem c10_empty_parent_diff_witness :
    ("net" : String) ≠ "*" ∧
      (⟨5, 1, "e", false, [], true⟩ : PRec).namespaces = [] ∧
      (diffInodes [⟨"net", "net:W"⟩] (some []) =
          ([⟨"net", "net:W"⟩] : List NamespaceEntry).map NamespaceEntry.inode
        ∧ hasRequestedNamespaceDiff ["net"] [⟨"net", "net:W"⟩] (some []) =
            ([⟨"net", "net:W"⟩] : List NamespaceEntry).any (fun e => e.type == "net")
        ∧ ∀ (cs : List KTree) (pre : String) (b : Bool)
            (pns : Option (List NamespaceEntry)),
            renderTree (KTree.node ⟨5, 1, "e", false, [], true⟩ true cs) pre b pns =
              lineOf ⟨5, 1, "e", false, [], true⟩ pre b pns ::
                renderChildren 0 (lastKeptIdx cs) (pre ++ (if b then "  " else "│ ")) [] cs) :=
  ⟨by decide, by decide,
    c10_empty_parent_diff "net" (by decide) [⟨"net", "net:W"⟩] ⟨5, 1, "e", false, [], true⟩ rfl⟩

/-- C3 fails on the code: in the two-record variant the pid-1 root
possesses a net entry and has no parent, so
`has_requested_namespace_diff` returns 1 for it and it is kept and
rendered — the output is not empty, and in the three-record variant
pid 1 has own relevance (it is not kept merely as an ancestor). -/
theorem c3_counterexample :
    (markKeep ["net"] none twoTree).keep = true
    ∧ renderTree (markKeep ["net"] none twoTree) "" true none ≠ []
    ∧ hasRequestedNamespaceDiff ["net"] rec1.namespaces none = true := by
  decide

/-- C3 amended: with filter net on the two-record input, pid 2 is
pruned but pid 1 is kept (own-relevant as a root possessing a net
entry) and is rendered alone; in the three-record variant pid 1 is
own-relevant, pid 2 has no own relevance yet is kept because its
descendant pid 3 is relevant, and all three nodes are kept. -/
theorem c3_amended_scenario :
    keepFlags (markKeep ["net"] none twoTree) = [true, false]
    ∧ renderTree (markKeep ["net"] none twoTree) "" true none = ["└─init(1) [net:A, mnt:B]"]
    ∧ hasRequestedNamespaceDiff ["net"] rec1.namespaces none = true
    ∧ hasRequestedNamespaceDiff ["net"] rec2.namespaces (some rec1.namespaces) = false
    ∧ hasRequestedNamespaceDiff ["net"] rec3.namespaces (some rec2.namespaces) = true
    ∧ keepFlags (markKeep ["net"] none threeTree) = [true, true, true] := by
  decide

/-- C8: when no record has pid 1 with the thread flag clear, the render
phase of `main` finds no root and emits nothing (and, being a total
function, terminates normally). -/
theorem c8_no_root_no_output (records : List PRec) (filters : List String)
    (h : ∀ r ∈ records, r.pid ≠ 1 ∨ r.isThread = true) :
    mainRender records filters = [] := by
  have hfind : records.find? (fun r => r.pid == 1 && !r.isThread) = none := by
    rw [List.find?_eq_none]
    intro r hr
    rcases h r hr with h1 | h2
    · simp [h1]
    · simp [h2]
  simp [mainRender, hfind]

/-- Witness for `c8_no_root_no_output` on a single pid-2 record. -/
theorem c8_no_root_no_output_witness :
    (∀ r ∈ [rec2], r.pid ≠ 1 ∨ r.isThread = true) ∧ mainRender [rec2] ["net"] = [] :=
  ⟨by decide, c8_no_root_no_output [rec2] ["net"] (by decide)⟩

/-- A list with no first-colon position contains no colon. -/
theorem noColon_of_firstColonIdx_none (l : List Char) (h : firstColonIdx l = none) :
    ∀ c ∈ l, c ≠ ':' := by
  induction l with
  | nil => intro c hc; simp at hc
  | cons a rest ih =>
    intro c hc
    by_cases ha : a = ':'
    · simp [firstColonIdx, ha] at h
    · simp only [firstColonIdx, if_neg ha, Option.map_eq_none'] at h
      rcases List.mem_cons.mp hc with rfl | hc'
      · exact ha
      · exact ih h c hc'

/-- Taking characters up to the first colon is the identity on a
colon-free list. -/
theorem takeWhile_eq_self_of_noColon (l : List Char) (h : ∀ c ∈ l, c ≠ ':') :
    l.takeWhile (fun c => c != ':') = l := by
  induction l with
  | nil => rfl
  | cons a rest ih =>
    have ha : (a != ':') = true := by simpa using h a (List.mem_cons_self a rest)
    simp [List.takeWhile_cons, ha,
      ih (fun c hc => h c (List.mem_cons_of_mem a hc))]

/-- Taking characters up to the first colon is taking up to the first
colon's position. -/
theorem takeWhile_eq_take_of_firstColonIdx (l : List Char) (p : Nat)
    (h : firstColonIdx l = some p) :
    l.takeWhile (fun c => c != ':') = l.take p := by
  induction l generalizing p with
  | nil => simp [firstColonIdx] at h
  | cons a rest ih =>
    by_cases ha : a = ':'
    · simp only [firstColonIdx, if_pos ha, Option.some.injEq] at h
      subst h
      simp [List.takeWhile_cons, ha]
    · simp only [firstColonIdx, if_neg ha, Option.map_eq_some'] at h
      rcases h with ⟨q, hq, rfl⟩
      have ha' : (a != ':') = true := by simpa using ha
      simp [List.takeWhile_cons, ha', ih q hq, List.take_succ_cons]

/-- C9 fails on the code as stated: for a symlink target whose
pre-colon part has 40 characters, the 32-byte type buffer truncates the
stored type to 31 characters, so it is no longer the stored
identifier's segment before the first ':'. -/
theorem c9_counterexample :
    ¬((parse_namespace_symlink longTarget).type =
        ⟨(parse_namespace_symlink longTarget).inode.data.takeWhile (fun c => c != ':')⟩) := by
  decide

/-- C9 amended: whenever the target fits the fixed buffers (the first
':' occurs before position 32, or there is no ':' and the target has at
most 31 characters), the stored type equals the stored identifier's
segment before the first ':', and with no ':' the stored type equals
the stored identifier. -/
theorem c9_prefix_invariant (s : String) (hfit : bufferFits s = true) :
    (parse_namespace_symlink s).type =
      ⟨(parse_namespace_symlink s).inode.data.takeWhile (fun c => c != ':')⟩
    ∧ (firstColonIdx s.data = none →
        (parse_namespace_symlink s).type = (parse_namespace_symlink s).inode) := by
  cases hidx : firstColonIdx s.data with
  | none =>
    have hlen : s.data.length ≤ 31 := by simpa [bufferFits, hidx] using hfit
    have hno := noColon_of_firstColonIdx_none s.data hidx
    have h31 : s.data.take 31 = s.data := List.take_of_length_le hlen
    have h63 : s.data.take 63 = s.data := List.take_of_length_le (le_trans hlen (by omega))
    constructor
    · simp only [parse_namespace_symlink, hidx, h31, h63]
      exact congrArg String.mk (takeWhile_eq_self_of_noColon s.data hno).symm
    · intro _
      simp only [parse_namespace_symlink, hidx, h31, h63]
  | some p =>
    have hp : p < 32 := by simpa [bufferFits, hidx] using hfit
    have hmin : min p 31 = p := by omega
    constructor
    · simp only [parse_namespace_symlink, hidx, hmin]
      refine congrArg String.mk ?_
      rw [← List.take_takeWhile, takeWhile_eq_take_of_firstColonIdx s.data p hidx,
        List.take_take]
      have h63p : min 63 p = p := by omega
      rw [h63p]
    · intro hnone
      exact Option.noConfusion hnone

/-- Witness for `c9_prefix_invariant` at the realistic target
"net:[4026531840]". -/
theorem c9_prefix_invariant_witness :
    bufferFits "net:[4026531840]" = true
    ∧ ((parse_namespace_symlink "net:[4026531840]").type =
        ⟨(parse_namespace_symlink "net:[4026531840]").inode.data.takeWhile (fun c => c != ':')⟩
      ∧ (firstColonIdx ("net:[4026531840]" : String).data = none →
          (parse_namespace_symlink "net:[4026531840]").type =
            (parse_namespace_symlink "net:[4026531840]").inode)) :=
  ⟨by decide, c9_prefix_invariant "net:[4026531840]" (by decide)⟩

/-- Unfolding of `markKeep` at a node. -/
theorem markKeep_node (f : List String) (p : Option (List NamespaceEntry))
    (r : PRec) (cs : List ProcTree) :
    markKeep f p (.node r cs) =
      .node r
        ((if f.isEmpty then true else hasRequestedNamespaceDiff f r.namespaces p)
          || (markKeepList f r.namespaces cs).any KTree.keep)
        (markKeepList f r.namespaces cs) := by
  simp [markKeep]

/-- The keep flag of a node. -/
theorem KTree.keep_node (r : PRec) (k : Bool) (cs : List KTree) :
    (KTree.node r k cs).keep = k := rfl

/-- The children of a node. -/
theorem KTree.children_node (r : PRec) (k : Bool) (cs : List KTree) :
    (KTree.node r k cs).children = cs := rfl

/-- Unfolding of `allNodes` at a node. -/
theorem allNodes_node (r : PRec) (k : Bool) (cs : List KTree) :
    allNodes (.node r k cs) = .node r k cs :: allNodesList cs := by
  simp [allNodes]

/-- Unfolding of `renderTree` at a node. -/
theorem renderTree_node (r : PRec) (k : Bool) (cs : List KTree) (pre : String)
    (b : Bool) (pns : Option (List NamespaceEntry)) :
    renderTree (.node r k cs) pre b pns =
      if !k then []
      else
        lineOf r pre b pns ::
          renderChildren 0 (lastKeptIdx cs) (pre ++ (if b then "  " else "│ "))
            r.namespaces cs := by
  simp [renderTree]

/-- Unfolding of `renderedNodes` at a node. -/
theorem renderedNodes_node (r : PRec) (k : Bool) (cs : List KTree) :
    renderedNodes (.node r k cs) =
      if !k then [] else .node r k cs :: renderedNodesList cs := by
  simp [renderedNodes]

/-- The child loop of `markKeep` maps `markKeep` over the children. -/
theorem markKeepList_eq_map (f : List String) (nsL : List NamespaceEntry)
    (cs : List ProcTree) :
    markKeepList f nsL cs = cs.map (fun c => markKeep f (some nsL) c) := by
  induction cs with
  | nil => rfl
  | cons c rest ih => simp [markKeepList, ih]

/-- Keep-marking preserves the number of children. -/
theorem markKeepList_length (f : List String) (nsL : List NamespaceEntry)
    (cs : List ProcTree) : (markKeepList f nsL cs).length = cs.length := by
  rw [markKeepList_eq_map]; simp

/-- Membership in the preorder node list of a list of trees. -/
theorem mem_allNodesList (x : KTree) (cs : List KTree) :
    x ∈ allNodesList cs ↔ ∃ c, c ∈ cs ∧ x ∈ allNodes c := by
  induction cs with
  | nil => simp [allNodesList]
  | cons c rest ih =>
    simp only [allNodesList, List.mem_append, ih]
    constructor
    · rintro (hx | ⟨c', hc', hx⟩)
      · exact ⟨c, List.mem_cons_self c rest, hx⟩
      · exact ⟨c', List.mem_cons_of_mem c hc', hx⟩
    · rintro ⟨c', hc', hx⟩
      rcases List.mem_cons.mp hc' with rfl | hc''
      · exact Or.inl hx
      · exact Or.inr ⟨c', hc'', hx⟩

/-- Every tree is among its own nodes. -/
theorem self_mem_allNodes (t : KTree) : t ∈ allNodes t := by
  cases t with
  | node r k cs => rw [allNodes_node]; exact List.mem_cons_self _ _

/-- Keep-closure restricts to the children of a node. -/
theorem keepClosed_children (r : PRec) (k : Bool) (cs : List KTree)
    (h : KeepClosed (.node r k cs)) : ∀ c ∈ cs, KeepClosed c := by
  intro c hc s hs
  exact h s (by
    rw [allNodes_node]
    exact List.mem_cons_of_mem _ ((mem_allNodesList s cs).mpr ⟨c, hc, hs⟩))

/-- In a keep-closed tree whose root is not kept, no node is kept. -/
theorem keep_false_all (t : KTree) :
    KeepClosed t → t.keep = false → ∀ x ∈ allNodes t, x.keep = false := by
  induction t using kTree_ind with
  | h r k cs ih =>
    intro hcl hk x hx
    rw [allNodes_node] at hx
    rcases List.mem_cons.mp hx with rfl | hx'
    · exact hk
    · obtain ⟨c, hc, hxc⟩ := (mem_allNodesList x cs).mp hx'
      have hcf : c.keep = false := by
        cases hck : c.keep
        · rfl
        · have hks : (KTree.node r k cs).keep = true :=
            hcl _ (self_mem_allNodes _) c (by rw [KTree.children_node]; exact hc) hck
          rw [hks] at hk
          exact Bool.noConfusion hk
      exact ih c hc (keepClosed_children r k cs hcl c hc) hcf x hxc

/-- The rendered-node loop over keep-closed children filters the
preorder node list by the keep flag. -/
theorem renderedNodesList_eq_filter (cs : List KTree)
    (h1 : ∀ c ∈ cs, KeepClosed c)
    (h2 : ∀ c ∈ cs, KeepClosed c → renderedNodes c = (allNodes c).filter KTree.keep) :
    renderedNodesList cs = (allNodesList cs).filter KTree.keep := by
  induction cs with
  | nil => rfl
  | cons c rest ih =>
    simp only [renderedNodesList, allNodesList, List.filter_append]
    have head : (if c.keep = true then renderedNodes c else []) =
        (allNodes c).filter KTree.keep := by
      cases hck : c.keep
      · have hall := keep_false_all c (h1 c (List.mem_cons_self c rest)) hck
        rw [if_neg (by simp [hck])]
        exact (List.filter_eq_nil_iff.mpr (fun x hx => by simp [hall x hx])).symm
      · rw [if_pos rfl]
        exact h2 c (List.mem_cons_self c rest) (h1 c (List.mem_cons_self c rest))
    rw [head, ih (fun c' hc' => h1 c' (List.mem_cons_of_mem c hc'))
      (fun c' hc' => h2 c' (List.mem_cons_of_mem c hc'))]

/-- In a keep-closed tree the rendered nodes are exactly the nodes
with the keep flag set. -/
theorem renderedNodes_eq_filter (t : KTree) :
    KeepClosed t → renderedNodes t = (allNodes t).filter KTree.keep := by
  induction t using kTree_ind with
  | h r k cs ih =>
    intro hcl
    rw [renderedNodes_node, allNodes_node]
    cases k
    · have hall := keep_false_all _ hcl (by rw [KTree.keep_node])
      rw [allNodes_node] at hall
      simp only [Bool.not_false, if_true]
      rw [List.filter_cons_of_neg (by simp [KTree.keep_node])]
      exact (List.filter_eq_nil_iff.mpr
        (fun x hx => by simp [hall x (List.mem_cons_of_mem _ hx)])).symm
    · simp only [Bool.not_true]
      rw [if_neg (by simp), List.filter_cons_of_pos (by rw [KTree.keep_node])]
      rw [renderedNodesList_eq_filter cs (keepClosed_children _ _ _ hcl)
        (fun c hc hclc => ih c hc hclc)]

/-- Keep-marking always produces a keep-closed tree. -/
theorem markKeep_keepClosed (f : List String) (t0 : ProcTree) :
    ∀ p, KeepClosed (markKeep f p t0) := by
  induction t0 using procTree_ind with
  | h r cs ih =>
    intro p s hs c hc hck
    rw [markKeep_node, allNodes_node] at hs
    rcases List.mem_cons.mp hs with rfl | hs'
    · rw [KTree.children_node] at hc
      rw [KTree.keep_node]
      have hany : (markKeepList f r.namespaces cs).any KTree.keep = true :=
        List.any_eq_true.mpr ⟨c, hc, hck⟩
      simp [hany]
    · obtain ⟨kc, hkc, hskc⟩ := (mem_allNodesList s _).mp hs'
      rw [markKeepList_eq_map] at hkc
      obtain ⟨c0, hc0, rfl⟩ := List.mem_map.mp hkc
      exact ih c0 hc0 (some r.namespaces) s hskc c hc hck

/-- The child loop of `print_tree` emits exactly one line per node the
rendered-node traversal visits. -/
theorem renderChildren_length (cs : List KTree)
    (h : ∀ c ∈ cs, ∀ pre b pns, (renderTree c pre b pns).length = (renderedNodes c).length) :
    ∀ (idx : Nat) (li : Int) (newPre : String) (pnsL : List NamespaceEntry),
      (renderChildren idx li newPre pnsL cs).length = (renderedNodesList cs).length := by
  induction cs with
  | nil => intro idx li newPre pnsL; rfl
  | cons c rest ih =>
    intro idx li newPre pnsL
    have head : (if c.keep = true then
          renderTree c newPre ((idx : Int) == li) (some pnsL) else []).length =
        (if c.keep = true then renderedNodes c else []).length := by
      cases hck : c.keep
      · simp [hck]
      · simp only [if_pos hck]
        exact h c (List.mem_cons_self c rest) newPre ((idx : Int) == li) (some pnsL)
    simp only [renderChildren, renderedNodesList, List.length_append, head,
      ih (fun c' hc' => h c' (List.mem_cons_of_mem c hc')) (idx + 1) li newPre pnsL]

/-- `print_tree` emits exactly one line per node it visits. -/
theorem renderTree_length (t : KTree) :
    ∀ pre b pns, (renderTree t pre b pns).length = (renderedNodes t).length := by
  induction t using kTree_ind with
  | h r k cs ih =>
    intro pre b pns
    rw [renderTree_node, renderedNodes_node]
    cases k
    · simp
    · simp only [Bool.not_true, Bool.false_eq_true, if_false, List.length_cons]
      rw [renderChildren_length cs (fun c hc => ih c hc) 0 (lastKeptIdx cs)
        (pre ++ (if b then "  " else "│ ")) r.namespaces]

/-- C2: keep-marking gives every node the flag "own relevance OR some
kept child"; the rendered nodes are exactly the nodes with the keep
flag (one line each); whenever any node is kept the root is kept; and
a kept node's parent is always kept, so the kept set is a connected
subtree at the root whenever it is non-empty. -/
theorem c2_keep_invariant_connected (filters : List String)
    (pNs pNs2 : Option (List NamespaceEntry)) (t0 : ProcTree) (r : PRec)
    (cs : List ProcTree) (pre : String) (b : Bool) :
    ((markKeep filters pNs (.node r cs)).keep =
      ((if filters.isEmpty then true
        else hasRequestedNamespaceDiff filters r.namespaces pNs)
        || ((markKeep filters pNs (.node r cs)).children.any KTree.keep)))
    ∧ renderedNodes (markKeep filters pNs t0) =
        (allNodes (markKeep filters pNs t0)).filter KTree.keep
    ∧ (renderTree (markKeep filters pNs t0) pre b pNs2).length =
        (renderedNodes (markKeep filters pNs t0)).length
    ∧ ((∃ x ∈ allNodes (markKeep filters pNs t0), x.keep = true) →
        (markKeep filters pNs t0).keep = true)
    ∧ (∀ s ∈ allNodes (markKeep filters pNs t0), ∀ c ∈ s.children,
        c.keep = true → s.keep = true) := by
  refine ⟨?_, ?_, ?_, ?_, ?_⟩
  · rw [markKeep_node, KTree.keep_node, KTree.children_node]
  · exact renderedNodes_eq_filter _ (markKeep_keepClosed filters t0 pNs)
  · exact renderTree_length _ pre b pNs2
  · rintro ⟨x, hx, hxk⟩
    cases hk : (markKeep filters pNs t0).keep
    · have := keep_false_all _ (markKeep_keepClosed filters t0 pNs) hk x hx
      rw [this] at hxk
      exact Bool.noConfusion hxk
    · rfl
  · exact markKeep_keepClosed filters t0 pNs

/-- A node that differs from its parent in a concrete namespace type
also differs in the wildcard sense. -/
theorem nsDiffers_wildcard_of_concrete (t : String) (ht : t ≠ "*")
    (ns : List NamespaceEntry) (pns : Option (List NamespaceEntry))
    (h : nsDiffersForFilter t ns pns = true) :
    nsDiffersForFilter "*" ns pns = true := by
  have hbeq : (t == "*") = false := by simpa using ht
  rw [nsDiffersForFilter.eq_def, if_neg (by simp [hbeq])] at h
  rw [nsDiffersForFilter.eq_def, if_pos (by decide)]
  cases hfind : ns.find? (fun e => e.type == t) with
  | none =>
    rw [hfind] at h
    cases pns <;> simp at h
  | some e =>
    have hmem := List.mem_of_find?_eq_some hfind
    have hty : e.type = t := by simpa using List.find?_some hfind
    rw [hfind] at h
    simp only [Option.map_some'] at h
    cases pns with
    | none => exact List.any_eq_true.mpr ⟨e, hmem, rfl⟩
    | some ps =>
      refine List.any_eq_true.mpr ⟨e, hmem, ?_⟩
      rw [hty]
      exact h

/-- Keep decisions are monotone from a concrete filter to the
wildcard filter, node by node. -/
theorem markKeep_keep_mono (t : String) (ht : t ≠ "*") (t0 : ProcTree) :
    ∀ pns, (markKeep [t] pns t0).keep = true → (markKeep ["*"] pns t0).keep = true := by
  induction t0 using procTree_ind with
  | h r cs ih =>
    intro pns hk
    rw [markKeep_node, KTree.keep_node] at hk ⊢
    rw [Bool.or_eq_true] at hk
    rw [Bool.or_eq_true]
    rcases hk with hown | hany
    · left
      have h1 : nsDiffersForFilter t r.namespaces pns = true := by
        simpa [hasRequestedNamespaceDiff] using hown
      simpa [hasRequestedNamespaceDiff] using
        nsDiffers_wildcard_of_concrete t ht r.namespaces pns h1
    · right
      rw [List.any_eq_true] at hany
      rw [List.any_eq_true]
      obtain ⟨kc, hkc, hkck⟩ := hany
      rw [markKeepList_eq_map] at hkc
      obtain ⟨c0, hc0, rfl⟩ := List.mem_map.mp hkc
      exact ⟨markKeep ["*"] (some r.namespaces) c0,
        by rw [markKeepList_eq_map]; exact List.mem_map.mpr ⟨c0, hc0, rfl⟩,
        ih c0 hc0 (some r.namespaces) hkck⟩

/-- Pointwise keep monotonicity over the preorder flags of the marked
children of a node. -/
theorem keepFlags_forall2_list (t : String)
    (nsL : List NamespaceEntry) (cs : List ProcTree)
    (ih : ∀ c ∈ cs, ∀ pns, List.Forall₂ (fun a b => a = true → b = true)
      (keepFlags (markKeep [t] pns c)) (keepFlags (markKeep ["*"] pns c))) :
    List.Forall₂ (fun a b => a = true → b = true)
      ((allNodesList (markKeepList [t] nsL cs)).map KTree.keep)
      ((allNodesList (markKeepList ["*"] nsL cs)).map KTree.keep) := by
  induction cs with
  | nil => exact List.Forall₂.nil
  | cons c rest ihl =>
    simp only [markKeepList, allNodesList, List.map_append]
    have hc := ih c (List.mem_cons_self c rest) (some nsL)
    simp only [keepFlags] at hc
    exact List.rel_append hc
      (ihl (fun c' hc' pns => ih c' (List.mem_cons_of_mem c hc') pns))

/-- Pointwise keep monotonicity over a whole tree's preorder flags. -/
theorem keepFlags_forall2 (t : String) (ht : t ≠ "*") (t0 : ProcTree) :
    ∀ pns, List.Forall₂ (fun a b => a = true → b = true)
      (keepFlags (markKeep [t] pns t0)) (keepFlags (markKeep ["*"] pns t0)) := by
  induction t0 using procTree_ind with
  | h r cs ih =>
    intro pns
    simp only [keepFlags, markKeep_node, allNodes_node, List.map_cons]
    refine List.Forall₂.cons ?_ ?_
    · intro hkt
      have hmono := markKeep_keep_mono t ht (.node r cs) pns
      rw [markKeep_node, KTree.keep_node, markKeep_node, KTree.keep_node] at hmono
      exact hmono hkt
    · exact keepFlags_forall2_list t r.namespaces cs ih

/-- C5: for any input tree, the set of nodes kept under the wildcard
filter includes every node kept under a single concrete filter type
(pointwise over the preorder keep flags, which align because marking
preserves the tree shape). -/
theorem c5_wildcard_superset (t : String) (ht : t ≠ "*")
    (pNs : Option (List NamespaceEntry)) (t0 : ProcTree) :
    List.Forall₂ (fun a b => a = true → b = true)
      (keepFlags (markKeep [t] pNs t0)) (keepFlags (markKeep ["*"] pNs t0)) :=
  keepFlags_forall2 t ht t0 pNs

/-- Witness for `c5_wildcard_superset` on the three-record scenario
tree under filter net. -/
theorem c5_wildcard_superset_witness :
    ("net" : String) ≠ "*" ∧
      List.Forall₂ (fun a b => a = true → b = true)
        (keepFlags (markKeep ["net"] none threeTree))
        (keepFlags (markKeep ["*"] none threeTree)) :=
  ⟨by decide, c5_wildcard_superset "net" (by decide) none threeTree⟩

/-- A downward scan over the reversed index range finds exactly the
largest index satisfying the predicate. -/
theorem range_rev_find?_eq_some (p : Nat → Bool) :
    ∀ (n i : Nat), ((List.range n).reverse.find? p = some i) ↔
      (i < n ∧ p i = true ∧ ∀ j, i < j → j < n → p j = false) := by
  intro n
  induction n with
  | zero =>
    intro i
    simp [List.range_zero]
  | succ n ih =>
    intro i
    rw [List.range_succ, List.reverse_append]
    simp only [List.reverse_cons, List.reverse_nil, List.nil_append,
      List.singleton_append]
    cases hp : p n with
    | true =>
      simp only [List.find?_cons, hp]
      constructor
      · intro heq
        have hni : n = i := by simpa using heq
        subst hni
        exact ⟨Nat.lt_succ_self n, hp, fun j hj1 hj2 => absurd hj2 (by omega)⟩
      · rintro ⟨h1, h2, h3⟩
        by_cases hin : i = n
        · subst hin; rfl
        · have hlt : i < n := by omega
          have hcontra := h3 n hlt (Nat.lt_succ_self n)
          rw [hp] at hcontra
          exact Bool.noConfusion hcontra
    | false =>
      simp only [List.find?_cons, hp]
      rw [ih i]
      constructor
      · rintro ⟨h1, h2, h3⟩
        refine ⟨by omega, h2, fun j hj1 hj2 => ?_⟩
        by_cases hjn : j = n
        · subst hjn; exact hp
        · exact h3 j hj1 (by omega)
      · rintro ⟨h1, h2, h3⟩
        have hin : i ≠ n := by
          intro he; rw [he, hp] at h2; exact Bool.noConfusion h2
        exact ⟨by omega, h2, fun j hj1 hj2 => h3 j hj1 (by omega)⟩

/-- The last-kept scan returns index `i` of a kept child exactly when
no later sibling is kept. -/
theorem lastKeptIdx_eq_iff (cs : List KTree) (i : Nat) (h : i < cs.length)
    (hk : cs[i].keep = true) :
    (lastKeptIdx cs = (i : Int)) ↔
      ∀ j, ∀ (hj : j < cs.length), i < j → cs[j].keep = false := by
  constructor
  · intro heq
    rw [lastKeptIdx.eq_def] at heq
    split at heq
    · next i' hfind =>
        have hii : i' = i := by exact_mod_cast heq
        subst hii
        obtain ⟨_, _, hall⟩ := (range_rev_find?_eq_some _ _ _).mp hfind
        intro j hj hij
        have hj' := hall j hij hj
        simp only [List.get?_eq_getElem?, List.getElem?_eq_getElem hj] at hj'
        exact hj'
    · next hfind =>
        exact absurd heq (by omega)
  · intro hall
    have hfind : (List.range cs.length).reverse.find?
        (fun i => match cs.get? i with | some c => c.keep | none => false) = some i :=
      (range_rev_find?_eq_some _ _ _).mpr
        ⟨h, by simp [List.get?_eq_getElem?, List.getElem?_eq_getElem h, hk],
         fun j hij hjn => by
           simp [List.get?_eq_getElem?, List.getElem?_eq_getElem hjn, hall j hjn hij]⟩
    rw [lastKeptIdx.eq_def, hfind]

/-- C6: the flag passed to a kept child of a rendered node — which
selects the terminal glyph for its line — is set exactly when no later
sibling is kept (pruned siblings never matter), and the prefix handed
to the children extends the node's prefix by blanks when the node was
flagged last and by a continuation bar otherwise. -/
theorem c6_glyph_last_kept (cs : List KTree) (i : Nat) (h : i < cs.length)
    (hk : cs[i].keep = true) :
    ((lastKeptIdx cs = (i : Int)) ↔
      ∀ j, ∀ (hj : j < cs.length), i < j → cs[j].keep = false)
    ∧ (∀ (r : PRec) (pre : String) (b : Bool) (pns : Option (List NamespaceEntry)),
        renderTree (KTree.node r true cs) pre b pns =
          lineOf r pre b pns ::
            renderChildren 0 (lastKeptIdx cs) (pre ++ (if b then "  " else "│ "))
              r.namespaces cs)
    ∧ (∀ (idx : Nat) (li : Int) (newPre : String) (pnsL : List NamespaceEntry)
        (c : KTree) (rest : List KTree),
        renderChildren idx li newPre pnsL (c :: rest) =
          (if c.keep then renderTree c newPre ((idx : Int) == li) (some pnsL) else []) ++
            renderChildren (idx + 1) li newPre pnsL rest) := by
  refine ⟨lastKeptIdx_eq_iff cs i h hk, ?_, ?_⟩
  · intro r pre b pns
    rw [renderTree_node]
    simp
  · intro idx li newPre pnsL c rest
    rw [renderChildren.eq_def]

/-- Witness for `c6_glyph_last_kept` on a single kept child at index 0. -/
theorem c6_glyph_last_kept_witness :
    ((lastKeptIdx [KTree.node wRec true []] = ((0 : Nat) : Int)) ↔
      ∀ j, ∀ (hj : j < ([KTree.node wRec true []] : List KTree).length), 0 < j →
        ([KTree.node wRec true []] : List KTree)[j].keep = false)
    ∧ (∀ (r : PRec) (pre : String) (b : Bool) (pns : Option (List NamespaceEntry)),
        renderTree (KTree.node r true [KTree.node wRec true []]) pre b pns =
          lineOf r pre b pns ::
            renderChildren 0 (lastKeptIdx [KTree.node wRec true []])
              (pre ++ (if b then "  " else "│ ")) r.namespaces
              [KTree.node wRec true []])
    ∧ (∀ (idx : Nat) (li : Int) (newPre : String) (pnsL : List NamespaceEntry)
        (c : KTree) (rest : List KTree),
        renderChildren idx li newPre pnsL (c :: rest) =
          (if c.keep then renderTree c newPre ((idx : Int) == li) (some pnsL) else []) ++
            renderChildren (idx + 1) li newPre pnsL rest) :=
  c6_glyph_last_kept [KTree.node wRec true []] 0 (by decide) (by decide)

/-- With no filters every marked node's keep flag is true. -/
theorem markKeep_nil_keep (p : Option (List NamespaceEntry)) (t0 : ProcTree) :
    (markKeep [] p t0).keep = true := by
  cases t0 with
  | node r cs =>
    rw [markKeep_node, KTree.keep_node]
    simp

/-- With no filters every keep flag in the whole marked tree is true. -/
theorem keepFlags_nil_all (t0 : ProcTree) :
    ∀ p, ∀ x ∈ keepFlags (markKeep [] p t0), x = true := by
  induction t0 using procTree_ind with
  | h r cs ih =>
    intro p x hx
    simp only [keepFlags, markKeep_node, allNodes_node, List.map_cons] at hx
    rcases List.mem_cons.mp hx with rfl | hx'
    · rw [KTree.keep_node]; simp
    · rw [List.mem_map] at hx'
      obtain ⟨y, hy, rfl⟩ := hx'
      rw [mem_allNodesList] at hy
      obtain ⟨kc, hkc, hykc⟩ := hy
      rw [markKeepList_eq_map] at hkc
      obtain ⟨c0, hc0, rfl⟩ := List.mem_map.mp hkc
      exact ih c0 hc0 (some r.namespaces) y.keep
        (by simp only [keepFlags]; exact List.mem_map.mpr ⟨y, hykc, rfl⟩)

/-- When every child is kept, the last kept index is the last index. -/
theorem all_kept_lastKeptIdx (kcs : List KTree) (hne : kcs ≠ [])
    (hall : ∀ c ∈ kcs, c.keep = true) :
    lastKeptIdx kcs = ((kcs.length - 1 : Nat) : Int) := by
  have hlen : 0 < kcs.length := List.length_pos.mpr hne
  have hlt : kcs.length - 1 < kcs.length := by omega
  have hk : kcs[kcs.length - 1].keep = true :=
    hall _ (List.getElem_mem hlt)
  exact (lastKeptIdx_eq_iff kcs (kcs.length - 1) hlt hk).mpr
    (fun j hj hij => absurd hj (by omega))

/-- The child loop of `print_tree` over children marked with no
filters coincides with the no-filter rendering of the children. -/
theorem renderChildren_nofilter (nsL : List NamespaceEntry) (cs : List ProcTree) :
    ∀ (idx : Nat) (li : Int) (newPre : String),
      (cs ≠ [] → li = ((idx + cs.length - 1 : Nat) : Int)) →
      (∀ c ∈ cs, ∀ pre b pns pns2,
        renderTree (markKeep [] pns2 c) pre b pns = renderNoFilterSpec c pre b pns) →
      renderChildren idx li newPre nsL (markKeepList [] nsL cs) =
        renderNoFilterSpecChildren newPre nsL cs := by
  induction cs with
  | nil =>
    intro idx li newPre _ _
    rfl
  | cons c rest ih =>
    intro idx li newPre hli hIH
    have hlen0 : (idx + (c :: rest).length - 1 : Nat) = idx + rest.length := by
      simp only [List.length_cons]
      omega
    have hli' : li = ((idx + rest.length : Nat) : Int) := by
      rw [hli (by simp), hlen0]
    have hflag : ((idx : Int) == li) = rest.isEmpty := by
      rw [hli']
      cases rest with
      | nil => simp
      | cons s rest' =>
        simp only [List.isEmpty_cons]
        refine beq_eq_false_iff_ne.mpr ?_
        simp only [List.length_cons]
        omega
    simp only [markKeepList, renderChildren, renderNoFilterSpecChildren]
    rw [if_pos (markKeep_nil_keep (some nsL) c), hflag,
      hIH c (List.mem_cons_self c rest) newPre rest.isEmpty (some nsL) (some nsL)]
    congr 1
    exact ih (idx + 1) li newPre
      (fun hne => by
        rw [hli']
        have hpos : rest.length ≠ 0 := fun h0 => hne (List.length_eq_zero.mp h0)
        congr 1
        omega)
      (fun c' hc' => hIH c' (List.mem_cons_of_mem c hc'))

/-- Rendering a tree marked with no filters is rendering with the
filter logic removed. -/
theorem renderTree_nofilter (t0 : ProcTree) :
    ∀ (pre : String) (b : Bool) (pns pns2 : Option (List NamespaceEntry)),
      renderTree (markKeep [] pns2 t0) pre b pns = renderNoFilterSpec t0 pre b pns := by
  induction t0 using procTree_ind with
  | h r cs ih =>
    intro pre b pns pns2
    rw [markKeep_node, renderTree_node]
    have hkeep : ((if ([] : List String).isEmpty then true
        else hasRequestedNamespaceDiff [] r.namespaces pns2)
        || (markKeepList [] r.namespaces cs).any KTree.keep) = true := by simp
    rw [hkeep]
    simp only [Bool.not_true, Bool.false_eq_true, if_false]
    rw [renderNoFilterSpec.eq_def]
    congr 1
    refine renderChildren_nofilter r.namespaces cs 0 _ _ ?_ ?_
    · intro hne
      have hne' : markKeepList [] r.namespaces cs ≠ [] := fun hmap => hne (by
        have hlen := congrArg List.length hmap
        rw [markKeepList_length] at hlen
        exact List.length_eq_zero.mp hlen)
      have hall : ∀ kc ∈ markKeepList [] r.namespaces cs, kc.keep = true := by
        intro kc hkc
        rw [markKeepList_eq_map] at hkc
        obtain ⟨c0, hc0, rfl⟩ := List.mem_map.mp hkc
        exact markKeep_nil_keep (some r.namespaces) c0
      rw [all_kept_lastKeptIdx _ hne' hall, markKeepList_length]
      congr 1
      omega
    · intro c hc pre' b' pns' pns2'
      exact ih c hc pre' b' pns' pns2'

/-- C7: with an empty filter set every node's keep flag is true and
the rendered output coincides with rendering that has no filter logic
at all. -/
theorem c7_no_filter_identity (pNs pNs2 : Option (List NamespaceEntry))
    (pre : String) (b : Bool) (t0 : ProcTree) :
    (∀ x ∈ keepFlags (markKeep [] pNs t0), x = true)
    ∧ renderTree (markKeep [] pNs t0) pre b pNs2 = renderNoFilterSpec t0 pre b pNs2 :=
  ⟨keepFlags_nil_all t0 pNs, renderTree_nofilter t0 pre b pNs2 pNs⟩

end NSTree
